import Mathlib

/-!
# Verification of the `goat` terminal engine (`term` package)

This file gives a shallow embedding of the input-processing engine of the
`term` package (files `term.go` / `term_line.go` / `term_frame.go`) and
proves properties of it.

Modelling conventions:

* Bytes are `Nat` (the Go code only ever compares byte values, so no
  modular arithmetic is needed).
* Go byte slices are modelled as immutable `List Nat` values; `copy`
  followed by an assignment is value assignment.  This is adequate for the
  line-mode state: every chunk the line-mode engine sends on the channel
  is a freshly allocated slice it never writes to again.  It is not
  adequate for Raw mode, where each chunk sent is the view `buffer[:n]`
  of the one read buffer that the next console read overwrites, so the
  Raw pipeline models the shared buffer explicitly (`RawState`, with a
  consumer `recv` reading the buffer contents current at that moment).
  Spare capacity of a Go slice is not modelled: a slice expression `s[k:]` is taken to be out of
  range when `k > len(s)` (Go panics when `k > cap(s)`; the model is
  conservative, and every out-of-range input exhibited below slices a nil
  slice, where `cap = len = 0` and the Go program really panics).
* A step that panics in Go returns `none`.
* The echo sink (`t.screen`) is modelled by the boolean field `scr`;
  echo writes are collected into a list of bytes.  Sink write failures
  (which merely disable echo) are not modelled: the sink is treated as
  infallible.
* The chunk channel `t.next` is modelled as the ordered list of chunks
  sent over it.
-/

/-! ## Control code constants (codes.go) -/

def NUL : Nat := 0
def SOH : Nat := 1
def STX : Nat := 2
def ETX : Nat := 3
def EOT : Nat := 4
def ENQ : Nat := 5
def ACK : Nat := 6
def BEL : Nat := 7
def BS : Nat := 8
def TAB : Nat := 9
def LF : Nat := 10
def VT : Nat := 11
def FF : Nat := 12
def CR : Nat := 13
def SO : Nat := 14
def SI : Nat := 15
def DLE : Nat := 16
def DC1 : Nat := 17
def DC2 : Nat := 18
def DC3 : Nat := 19
def DC4 : Nat := 20
def NAK : Nat := 21
def SYN : Nat := 22
def ETB : Nat := 23
def CAN : Nat := 24
def EM : Nat := 25
def SUB : Nat := 26
def ESC : Nat := 27
def FS : Nat := 28
def GS : Nat := 29
def RS : Nat := 30
def US : Nat := 31
def DEL : Nat := 127

/-- The control bytes of the plain-emit case of `linechar` (the `case SOH,
STX, ... , US` list in term_line.go, i.e. all of SOH..US except BS, TAB,
LF, CR and ESC, which have their own cases, and excluding NUL). -/
def emitCtl : List Nat :=
  [SOH, STX, ETX, EOT, ENQ, ACK, BEL, VT, FF, SO, SI, DLE, DC1,
   DC2, DC3, DC4, NAK, SYN, ETB, CAN, EM, SUB, FS, GS, RS, US]

/-! ## Line-editing state (the `TTY` fields used by line mode) -/

/-- The mutable state of the line-editing state machine: the fields
`screen` (modelled as the boolean `scr`: an echo sink is attached),
`output`, `last`, `preescape` and `linepos` of the Go `TTY` struct. -/
structure LineState where
  scr : Bool
  output : List Nat
  last : List Nat
  preescape : List Nat
  linepos : Int
deriving Repr, DecidableEq

/-- Bytes actually written by `t.echo(b...)`: the argument bytes when an
echo sink is attached, nothing otherwise. -/
def techo (s : LineState) (bs : List Nat) : List Nat :=
  if s.scr then bs else []

/-- History push (`hpush`): store `output` into the single-entry history `last`, unless
it is empty or begins with a control byte (value < 32). -/
def hpush (s : LineState) : LineState :=
  match s.output with
  | [] => s
  | c :: _ => if c < 32 then s else { s with last := s.output }

/-- History previous (`hprev`): replace `output` with the saved `last` line (or restore
`preescape` when there is no history).  Returns the new state and the
echoed bytes `home × BS, line, delta × SP, delta × BS`. -/
def hprev (s : LineState) : LineState × List Nat :=
  if s.last = [] then
    ({ s with output := s.preescape, preescape := [] }, [])
  else
    ({ s with output := s.last, preescape := [], linepos := -1 },
     if s.scr then
       List.replicate (if 0 ≤ s.linepos then s.linepos.toNat else s.preescape.length) BS ++
       s.last ++
       (if s.last.length < s.preescape.length then
          List.replicate (s.preescape.length - s.last.length) 32 ++
          List.replicate (s.preescape.length - s.last.length) BS
        else [])
     else [])

/-- Emit (`emit`): prepend `preescape` to `output`; if the result is nonempty,
send it on the chunk channel and reset `output` to a fresh empty buffer
with `linepos = -1`.  Returns the new state and the chunks sent. -/
def emit (s : LineState) : LineState × List (List Nat) :=
  if s.preescape = [] then
    if s.output = [] then (s, [])
    else ({ s with output := [], linepos := -1 }, [s.output])
  else
    ({ s with output := [], preescape := [], linepos := -1 },
     [s.preescape ++ s.output])

/-- Process one byte (`linechar`) in line mode outside an escape sequence.
Returns `none` where the Go code would panic (a `linepos` out of range of
`output`), otherwise the new state, the echoed bytes and the chunks sent. -/
def linechar (s : LineState) (ch : Nat) : Option (LineState × List Nat × List (List Nat)) :=
  if ch = ESC then
    if s.output = [] then
      some ({ s with output := [ESC] }, [], [])
    else
      some ({ s with preescape := s.output, output := [ESC] }, [], [])
  else if ch = CR ∨ ch = LF then
    some ((emit (hpush s)).1, techo s [CR, LF], (emit (hpush s)).2 ++ [[ch]])
  else if ch ∈ emitCtl then
    some ((emit s).1, [], (emit s).2 ++ [[ch]])
  else if ch = BS ∨ ch = DEL then
    if s.output = [] ∨ s.linepos = 0 then
      some (s, [], [])
    else if 0 < s.linepos then
      if (s.output.length : Int) < s.linepos then none
      else
        some ({ s with
                  output := s.output.take (s.linepos.toNat - 1) ++
                            s.output.drop s.linepos.toNat,
                  linepos := s.linepos - 1 },
              techo s (ch :: (s.output.drop s.linepos.toNat ++
                        32 :: List.replicate (s.output.length - s.linepos.toNat + 1) BS)),
              [])
    else
      some ({ s with output := s.output.dropLast }, techo s [ch, 32, ch], [])
  else
    if 0 ≤ s.linepos then
      if (s.output.length : Int) < s.linepos then none
      else
        some ({ s with
                  output := s.output.take s.linepos.toNat ++
                            ch :: s.output.drop s.linepos.toNat,
                  linepos := s.linepos + 1 },
              techo s (ch :: (s.output.drop s.linepos.toNat ++
                        List.replicate (s.output.length - s.linepos.toNat) BS)),
              [])
    else
      some ({ s with output := s.output ++ [ch] }, techo s [ch], [])

/-- Process one byte (`lineesc`) of a potential escape sequence in line
mode.  Mirrors the Go switch on the final byte (`@`..`~`, i.e. 64..126):
`A`/`B`/`C`/`D`/`~` are handled, anything else restores
`preescape ++ output` as the new output. -/
def lineesc (s : LineState) (ch : Nat) : Option (LineState × List Nat × List (List Nat)) :=
  if s.output.length = 1 then
    if ch = 91 then
      some ({ s with output := s.output ++ [91] }, [], [])
    else
      match linechar { s with output := s.preescape ++ s.output, preescape := [] } ch with
      | none => none
      | some (s2, e2, cs) => some (s2, techo s s.output ++ e2, cs)
  else if 64 ≤ ch ∧ ch ≤ 126 then
    if ch = 65 then
      some ((hprev { s with output := s.output ++ [ch] }).1,
            (hprev { s with output := s.output ++ [ch] }).2, [])
    else if ch = 66 then
      if s.linepos < 0 then
        some ({ s with output := s.preescape, preescape := [] }, [], [])
      else if (s.preescape.length : Int) < s.linepos then none
      else
        some ({ s with output := s.preescape, preescape := [], linepos := -1 },
              techo s (s.preescape.drop s.linepos.toNat), [])
    else if ch = 67 then
      if s.preescape = [] ∨ s.linepos < 0 then
        some ({ s with output := s.preescape, preescape := [] }, [], [])
      else if s.linepos + 1 = (s.preescape.length : Int) then
        some ({ s with output := s.preescape, preescape := [], linepos := -1 },
              techo s (s.output ++ [ch]), [])
      else
        some ({ s with output := s.preescape, preescape := [], linepos := s.linepos + 1 },
              techo s (s.output ++ [ch]), [])
    else if ch = 68 then
      if s.preescape = [] then
        some ({ s with output := s.preescape, preescape := [] }, [], [])
      else if s.linepos < 0 then
        some ({ s with output := s.preescape, preescape := [],
                       linepos := (s.preescape.length : Int) - 1 },
              techo s (s.output ++ [ch]), [])
      else if 0 < s.linepos then
        some ({ s with output := s.preescape, preescape := [], linepos := s.linepos - 1 },
              techo s (s.output ++ [ch]), [])
      else
        some ({ s with output := s.preescape, preescape := [] }, [], [])
    else if ch = 126 then
      some ({ s with output := s.preescape, preescape := [] }, [], [])
    else
      some ({ s with output := s.preescape ++ (s.output ++ [ch]), preescape := [] }, [], [])
  else
    some ({ s with output := s.output ++ [ch] }, [], [])

/-- Dispatch condition of `run` of `run`
(`len(t.output) > 0 && t.output[0] == ESC`). -/
def startsEsc : List Nat → Bool
  | [] => false
  | c :: _ => c == ESC

/-- One byte of the `run` loop body in Line/Frame mode: dispatch to the
escape handler or the printable/control handler. -/
def dispatch (s : LineState) (ch : Nat) : Option (LineState × List Nat × List (List Nat)) :=
  if startsEsc s.output then lineesc s ch else linechar s ch

/-- Process a whole byte sequence through the per-character dispatcher,
accumulating echo bytes and emitted chunks in order. -/
def processBytes (s : LineState) : List Nat → Option (LineState × List Nat × List (List Nat))
  | [] => some (s, [], [])
  | ch :: rest =>
    match dispatch s ch with
    | none => none
    | some (s1, e1, c1) =>
      match processBytes s1 rest with
      | none => none
      | some (s2, e2, c2) => some (s2, e1 ++ e2, c1 ++ c2)

/-- The state installed at the top of `run`: empty `output`, no history,
no pending escape, `linepos = -1`. -/
def initState (scr : Bool) : LineState :=
  { scr := scr, output := [], last := [], preescape := [], linepos := -1 }

/-- The whole Line-mode life of the processing task: process the console
bytes, then (when the console read fails with error `e`) flush the
pending chunk with `emit`, store the error and terminate.  Returns the
echo bytes, the full ordered chunk sequence and the stored error. -/
def runLine (scr : Bool) (input : List Nat) (e : Nat) :
    Option (List Nat × List (List Nat) × Nat) :=
  match processBytes (initState scr) input with
  | none => none
  | some (s, eo, cs) => some (eo, cs ++ (emit s).2, e)

/-! ## Raw mode and the consumer `Read` path -/

/-- Contents of the shared read buffer after `t.console.Read(t.buffer)`
returns the bytes `bs`: the first `len(bs)` cells are overwritten, the
rest keep their previous (stale) bytes. -/
def writeBuf (buf bs : List Nat) : List Nat := bs ++ buf.drop bs.length

/-- State of the Raw-mode pipeline.  `buffer` is the one `t.buffer` array
that `run` reuses for every console read; `queue` holds the lengths `n`
of the chunks `t.buffer[:n]` buffered in the channel — every queued chunk
aliases the same `buffer` — and `delivered` collects the byte runs
consumers have copied out, in order. -/
structure RawState where
  buffer : List Nat
  queue : List Nat
  delivered : List (List Nat)
deriving Repr, DecidableEq

/-- Events of the Raw-mode pipeline: a console read returning the bytes
`bs` (followed by `run` sending `buffer[:n]` on the channel), or a
consumer `Read` receiving the head chunk and copying it out. -/
inductive RawEv where
  | read (bs : List Nat)
  | recv
deriving Repr, DecidableEq

/-- One event of the Raw-mode pipeline.  A console read overwrites the
shared buffer and enqueues the chunk length (enabled while the read fits
the buffer and the 32-slot channel has room); a consumer `recv` pops the
head chunk and copies out the bytes the shared buffer holds at that
moment — the aliasing of `t.buffer[:n]`.  `none` means the event is not
enabled in this state. -/
def rawStep (s : RawState) (e : RawEv) : Option RawState :=
  match e with
  | RawEv.read bs =>
      if bs.length ≤ s.buffer.length ∧ s.queue.length < 32 then
        some { s with buffer := writeBuf s.buffer bs, queue := s.queue ++ [bs.length] }
      else none
  | RawEv.recv =>
      match s.queue with
      | [] => none
      | n :: rest =>
        some { s with queue := rest, delivered := s.delivered ++ [s.buffer.take n] }

/-- Run a schedule of Raw-mode events from a state. -/
def rawRun (s : RawState) : List RawEv → Option RawState
  | [] => some s
  | e :: es =>
    match rawStep s e with
    | none => none
    | some s1 => rawRun s1 es

/-- The prompt-drain schedule: the consumer receives each chunk before
the next console read overwrites the shared buffer. -/
def promptSched : List (List Nat) → List RawEv
  | [] => []
  | r :: rs => RawEv.read r :: RawEv.recv :: promptSched rs

/-- The reader-visible state after the processing task has terminated:
`leftover` is `t.partial`, `queue` the chunks still buffered in the
(closed) channel `t.next`, and `err` the stored `t.error`. -/
structure RdState where
  leftover : List Nat
  queue : List (List Nat)
  err : Nat
deriving Repr, DecidableEq

/-- Model of `TTY.Read` with a destination buffer of capacity `cap`: if `partial`
is empty, receive the next chunk from the channel, returning the stored
error if the channel is closed (drained); then copy as many bytes as fit
and keep the rest in `partial`. -/
def ttyRead (s : RdState) (cap : Nat) : (List Nat × Option Nat) × RdState :=
  if s.leftover = [] then
    match s.queue with
    | [] => (([], some s.err), s)
    | c :: rest =>
        ((c.take (min cap c.length), none),
         { s with leftover := c.drop (min cap c.length), queue := rest })
  else
    ((s.leftover.take (min cap s.leftover.length), none),
     { s with leftover := s.leftover.drop (min cap s.leftover.length) })

/-! ## Framed regions (term_frame.go) -/

/-- The `rect` struct. -/
structure rect where
  x : Int
  y : Int
  width : Int
  height : Int
deriving Repr, DecidableEq

/-- Grow a rectangle by `dw` cells on the left and right and `dh` cells
on the top and bottom (`rect.grow`). -/
def rect.grow (r : rect) (dw dh : Int) : rect :=
  { x := r.x - dw, y := r.y - dh, width := r.width + 2 * dw, height := r.height + 2 * dh }

/-- A `Region`: its content rectangle and optional border style (the
border is a `[]byte` in Go, compared against nil; `none` models nil). -/
structure Region where
  content : rect
  border : Option (List Nat)
deriving Repr, DecidableEq

/-- Install or remove a border (`Region.SetBorder`): the content rect
shrinks when going from no border to a border and grows back when the
border is removed. -/
def SetBorder (r : Region) (style : Option (List Nat)) : Region :=
  let r1 := if r.border = none then { r with content := r.content.grow (-1) (-1) } else r
  let r2 := { r1 with border := style }
  if r2.border = none then { r2 with content := r2.content.grow 1 1 } else r2

/-- The outer bounding rectangle, as computed at the top of
`Region.Draw`: the content rect, grown by one cell on each side when a
border is present. -/
def drawRect (r : Region) : rect :=
  if r.border = none then r.content else r.content.grow 1 1

/-- The history-slot invariant: `last` is empty, or its first byte is a
printable byte (value at least 32). -/
def lastOK : List Nat → Bool
  | [] => true
  | c :: _ => decide (32 ≤ c)

/-! ## Helper lemmas -/

theorem emit_snd (s : LineState) :
    (emit s).2 = if s.preescape ++ s.output = [] then [] else [s.preescape ++ s.output] := by
  unfold emit
  rcases hp : s.preescape with _ | ⟨c, cs⟩ <;> rcases ho : s.output with _ | ⟨d, ds⟩ <;> simp

theorem emit_fst_last (s : LineState) : (emit s).1.last = s.last := by
  unfold emit
  rcases hp : s.preescape with _ | ⟨c, cs⟩ <;> rcases ho : s.output with _ | ⟨d, ds⟩ <;> simp

theorem hpush_preescape (s : LineState) : (hpush s).preescape = s.preescape := by
  obtain ⟨scr, out, l, pre, lp⟩ := s
  rcases out with _ | ⟨c, cs⟩ <;> simp [hpush]
  split <;> rfl

theorem hpush_output (s : LineState) : (hpush s).output = s.output := by
  obtain ⟨scr, out, l, pre, lp⟩ := s
  rcases out with _ | ⟨c, cs⟩ <;> simp [hpush]
  split <;> rfl

theorem hpush_lastOK (s : LineState) (hs : lastOK s.last = true) :
    lastOK (hpush s).last = true := by
  obtain ⟨scr, out, l, pre, lp⟩ := s
  rcases out with _ | ⟨c, cs⟩
  · exact hs
  · simp only [hpush]
    split
    · exact hs
    · rename_i h
      simp only [lastOK, decide_eq_true_eq]
      omega

theorem hprev_fst_last (s : LineState) : ((hprev s).1).last = s.last := by
  unfold hprev
  split <;> simp

theorem linechar_lastOK (s : LineState) (ch : Nat)
    (r : LineState × List Nat × List (List Nat))
    (h : linechar s ch = some r) (hs : lastOK s.last = true) : lastOK r.1.last = true := by
  unfold linechar at h
  repeat' split at h
  all_goals first
    | exact Option.noConfusion h
    | (cases h; exact hs)
    | (cases h; simpa [emit_fst_last] using hpush_lastOK s hs)
    | (cases h; simpa [emit_fst_last] using hs)

theorem lineesc_lastOK (s : LineState) (ch : Nat)
    (r : LineState × List Nat × List (List Nat))
    (h : lineesc s ch = some r) (hs : lastOK s.last = true) : lastOK r.1.last = true := by
  unfold lineesc at h
  repeat' split at h
  all_goals first
    | exact Option.noConfusion h
    | (cases h; exact hs)
    | (cases h; simpa [hprev_fst_last] using hs)
    | (rename_i heq; cases h; simpa using linechar_lastOK _ _ _ heq hs)

theorem dispatch_lastOK (s : LineState) (ch : Nat)
    (r : LineState × List Nat × List (List Nat))
    (h : dispatch s ch = some r) (hs : lastOK s.last = true) : lastOK r.1.last = true := by
  unfold dispatch at h
  split at h
  · exact lineesc_lastOK _ _ _ h hs
  · exact linechar_lastOK _ _ _ h hs

theorem processBytes_lastOK (input : List Nat) :
    ∀ (s : LineState) (r : LineState × List Nat × List (List Nat)),
      processBytes s input = some r → lastOK s.last = true → lastOK r.1.last = true := by
  induction input with
  | nil =>
    intro s r h hs
    unfold processBytes at h
    cases h
    exact hs
  | cons ch rest ih =>
    intro s r h hs
    unfold processBytes at h
    split at h
    · exact Option.noConfusion h
    · rename_i s1 e1 c1 heq1
      split at h
      · exact Option.noConfusion h
      · rename_i s2 e2 c2 heq2
        cases h
        exact ih s1 (s2, e2, c2) heq2 (dispatch_lastOK s ch _ heq1 hs)

theorem writeBuf_take (buf bs : List Nat) : (writeBuf buf bs).take bs.length = bs := by
  simp [writeBuf]

theorem writeBuf_length (buf bs : List Nat) (h : bs.length ≤ buf.length) :
    (writeBuf buf bs).length = buf.length := by
  simp [writeBuf]
  omega

theorem rawRun_cons (s : RawState) (e : RawEv) (es : List RawEv) (s1 : RawState)
    (h : rawStep s e = some s1) : rawRun s (e :: es) = rawRun s1 es := by
  simp only [rawRun, h]

theorem rawRun_prompt (reads : List (List Nat)) :
    ∀ s : RawState, (∀ r ∈ reads, r.length ≤ s.buffer.length) → s.queue = [] →
      ∃ s2, rawRun s (promptSched reads) = some s2 ∧
        s2.delivered = s.delivered ++ reads ∧ s2.queue = [] := by
  induction reads with
  | nil =>
    intro s h hq
    exact ⟨s, rfl, by simp, hq⟩
  | cons r rs ih =>
    intro s h hq
    obtain ⟨buf, q, dl⟩ := s
    simp only at h hq ⊢
    subst hq
    have hr : r.length ≤ buf.length := h r (by simp)
    have hstep1 : rawStep ⟨buf, [], dl⟩ (RawEv.read r) =
        some ⟨writeBuf buf r, [r.length], dl⟩ := by
      simp [rawStep, hr]
    have hstep2 : rawStep ⟨writeBuf buf r, [r.length], dl⟩ RawEv.recv =
        some ⟨writeBuf buf r, [], dl ++ [r]⟩ := by
      simp [rawStep, writeBuf_take]
    have hrs : ∀ x ∈ rs, x.length ≤ (writeBuf buf r).length := by
      intro x hx
      rw [writeBuf_length buf r hr]
      exact h x (by simp [hx])
    obtain ⟨s2, hrun, hdel, hq2⟩ := ih ⟨writeBuf buf r, [], dl ++ [r]⟩ hrs rfl
    refine ⟨s2, ?_, ?_, hq2⟩
    · rw [show promptSched (r :: rs) = RawEv.read r :: RawEv.recv :: promptSched rs from rfl,
        rawRun_cons _ _ _ _ hstep1, rawRun_cons _ _ _ _ hstep2]
      exact hrun
    · rw [hdel]
      simp

/-! ## Claims -/

/-- C1: refuted as stated.  Raw-mode `run` sends `t.buffer[:n]` on the
channel and then reuses the same `t.buffer` for the next console read, so
every queued chunk aliases the one shared buffer.  A consumer lagging one
read behind observes overwritten bytes: with console reads `[1]` then
`[2]` and both `Read`s afterwards, the delivered chunks are `[2], [2]` —
the first source byte is lost, the second duplicated — and their
concatenation is not the source sequence `[1, 2]`.  Draining each chunk
before the next console read does deliver exactly the source bytes
(third conjunct; `rawRun_prompt` proves it for every read sequence). -/
theorem c1_raw_aliasing_corruption :
    rawRun ⟨[0], [], []⟩ [RawEv.read [1], RawEv.read [2], RawEv.recv, RawEv.recv] =
      some ⟨[2], [], [[2], [2]]⟩ ∧
    ([[2], [2]] : List (List Nat)).flatten ≠ [1, 2] ∧
    rawRun ⟨[0], [], []⟩ [RawEv.read [1], RawEv.recv, RawEv.read [2], RawEv.recv] =
      some ⟨[2], [], [[1], [2]]⟩ := by
  decide

/-- C5: the history slot `last` is empty or holds a line whose first byte
is printable (value at least 32), in every state reachable from the
initial state; and `hpush` never stores an `output` whose first byte is a
control byte. -/
theorem c5_history_first_byte_printable :
    (∀ (scr : Bool) (input : List Nat) (r : LineState × List Nat × List (List Nat)),
        processBytes (initState scr) input = some r → lastOK r.1.last = true) ∧
    (∀ (s : LineState) (c : Nat) (cs : List Nat),
        s.output = c :: cs → c < 32 → hpush s = s) := by
  constructor
  · intro scr input r h
    exact processBytes_lastOK input (initState scr) r h rfl
  · intro s c cs ho hc
    unfold hpush
    rw [ho]
    simp [hc]

theorem c5_history_first_byte_printable_witness :
    processBytes (initState true) [97, 13] =
      some ({ scr := true, output := [], last := [97], preescape := [], linepos := -1 },
            [97, 13, 10], [[97], [13]]) ∧
    lastOK (({ scr := true, output := [], last := [97], preescape := [], linepos := -1 },
             ([97, 13, 10] : List Nat),
             ([[97], [13]] : List (List Nat))) :
             LineState × List Nat × List (List Nat)).1.last = true :=
  ⟨by decide,
   c5_history_first_byte_printable.1 true [97, 13] _ (by decide)⟩

/-- C6: refuted invariant.  The claim states that after each processed
byte, `linepos = -1` or `0 ≤ linepos ≤ len(output)`.  The input
`ESC ESC ESC [ D A` drives the engine into a reachable state with
`linepos = 1` while both `output` and `preescape` are empty, and the very
next printable byte makes the Go code panic (negative-length `make` /
out-of-range slice in the mid-line insert path), modelled here by
`processBytes` returning `none`. -/
theorem c6_linepos_invariant_violation :
    processBytes (initState true) [27, 27, 27, 91, 68, 65] =
      some ({ scr := true, output := [], last := [], preescape := [], linepos := 1 },
            [27, 27, 27, 91, 68], []) ∧
    processBytes (initState true) [27, 27, 27, 91, 68, 65, 97] = none := by
  decide

/-- C10: refuted safety invariant.  After the input `ESC ESC ESC [ D` the
engine is inside an escape sequence (`output = [ESC, ESC]`) with
`linepos = 1` while `preescape = []`, so `linepos > len(preescape)`; the
completing final byte `B` then evaluates `preescape[linepos:]` on a nil
slice, a Go panic, modelled by the `none` (out-of-range) branch of the
embedding. -/
theorem c10_escape_slice_out_of_range :
    processBytes (initState true) [27, 27, 27, 91, 68] =
      some ({ scr := true, output := [27, 27], last := [], preescape := [], linepos := 1 },
            [27, 27, 27, 91, 68], []) ∧
    startsEsc [27, 27] = true ∧
    processBytes (initState true) [27, 27, 27, 91, 68, 66] = none := by
  decide

/-- C7: when UP (`CSI ... A`) is processed while the history slot `last`
is empty, `hprev` restores `output = preescape`, clears `preescape`, and
writes no bytes to the echo sink; accordingly the escape handler on the
final byte `A` produces no echo and no chunks. -/
theorem c7_up_no_history (s : LineState) (hlast : s.last = []) :
    hprev s = ({ s with output := s.preescape, preescape := [] }, []) ∧
    (s.output.length ≠ 1 →
      lineesc s 65 = some ({ s with output := s.preescape, preescape := [] }, [], [])) := by
  constructor
  · unfold hprev
    rw [if_pos hlast]
  · intro hlen
    unfold lineesc
    rw [if_neg hlen, if_pos (by omega), if_pos rfl]
    unfold hprev
    rw [if_pos (show ({ s with output := s.output ++ [65] } : LineState).last = [] from hlast)]

theorem c7_up_no_history_witness :
    ({ scr := true, output := [27, 91], last := [], preescape := [97], linepos := -1 }
       : LineState).last = [] ∧
    hprev { scr := true, output := [27, 91], last := [], preescape := [97], linepos := -1 } =
      ({ scr := true, output := [97], last := [], preescape := [], linepos := -1 }, []) ∧
    lineesc { scr := true, output := [27, 91], last := [], preescape := [97], linepos := -1 } 65 =
      some ({ scr := true, output := [97], last := [], preescape := [], linepos := -1 }, [], []) := by
  have h := c7_up_no_history
    { scr := true, output := [27, 91], last := [], preescape := [97], linepos := -1 } rfl
  exact ⟨rfl, by rw [h.1], by rw [h.2 (by decide)]⟩

/-- C8: when the console read fails, the processing task flushes the
pending output (`preescape` prepended to `output`) as one final chunk and
stores the error; `Read` first drains the queued chunks and returns the
stored error exactly when the channel is closed with `partial` empty and
no chunk left, never while a chunk remains queued. -/
theorem c8_error_after_drain :
    (∀ (scr : Bool) (input : List Nat) (e : Nat) (s : LineState)
        (eo : List Nat) (cs : List (List Nat)),
        processBytes (initState scr) input = some (s, eo, cs) →
        runLine scr input e =
          some (eo, cs ++ (if s.preescape ++ s.output = [] then []
                           else [s.preescape ++ s.output]), e)) ∧
    (∀ (rs : RdState) (cap : Nat),
        (ttyRead rs cap).1.2 =
          if rs.leftover = [] ∧ rs.queue = [] then some rs.err else none) ∧
    (∀ (rs : RdState) (cap : Nat) (c : List Nat) (q : List (List Nat)),
        rs.leftover = [] → rs.queue = c :: q →
        ttyRead rs cap = ((c.take (min cap c.length), none),
          { rs with leftover := c.drop (min cap c.length), queue := q })) := by
  refine ⟨?_, ?_, ?_⟩
  · intro scr input e s eo cs h
    unfold runLine
    rw [h]
    simp [emit_snd]
  · intro rs cap
    unfold ttyRead
    split
    · rename_i hl
      split
      · rename_i hq
        simp [hl, hq]
      · rename_i c rest hq
        simp [hl, hq]
    · rename_i hl
      simp [hl]
  · intro rs cap c q hl hq
    unfold ttyRead
    rw [if_pos hl, hq]

theorem c8_error_after_drain_witness :
    processBytes (initState true) [97] =
      some ({ scr := true, output := [97], last := [], preescape := [], linepos := -1 },
            [97], []) ∧
    runLine true [97] 7 = some ([97], [[97]], 7) ∧
    (ttyRead ⟨[], [], 7⟩ 4).1.2 = some 7 ∧
    ttyRead ⟨[], [[97]], 7⟩ 4 = (([97], none), ⟨[], [], 7⟩) := by
  refine ⟨by decide, ?_, ?_, ?_⟩
  · have h := c8_error_after_drain.1 true [97] 7
      { scr := true, output := [97], last := [], preescape := [], linepos := -1 }
      [97] [] (by decide)
    rw [h]
    decide
  · have h := c8_error_after_drain.2.1 ⟨[], [], 7⟩ 4
    rw [h]
    decide
  · have h := c8_error_after_drain.2.2 ⟨[], [[97]], 7⟩ 4 [97] [] rfl rfl
    rw [h]
    decide

/-- C9: `SetBorder` from no border to a style shrinks the content rect by
one cell on each side, from a style to no border grows it by one, and
between two styles leaves it unchanged; installing then removing a border
restores the content rect; the outer bounding rect (as computed by
`Draw`) is stable under `SetBorder`; and `grow (-1) (-1)` followed by
`grow 1 1` is the identity. -/
theorem c9_border_rect_algebra (r : Region) (style : List Nat) :
    (r.border = none →
        (SetBorder r (some style)).content = r.content.grow (-1) (-1)) ∧
    (∀ s0 : List Nat, r.border = some s0 →
        (SetBorder r none).content = r.content.grow 1 1) ∧
    (∀ s0 : List Nat, r.border = some s0 →
        (SetBorder r (some style)).content = r.content) ∧
    (r.border = none →
        (SetBorder (SetBorder r (some style)) none).content = r.content) ∧
    drawRect (SetBorder r (some style)) = drawRect r ∧
    drawRect (SetBorder r none) = drawRect r ∧
    (r.content.grow (-1) (-1)).grow 1 1 = r.content := by
  obtain ⟨⟨x, y, w, h⟩, b⟩ := r
  cases b <;>
    simp [SetBorder, drawRect, rect.grow, rect.mk.injEq]

theorem c9_border_rect_algebra_witness :
    ({ content := { x := 0, y := 0, width := 10, height := 5 }, border := none }
       : Region).border = none ∧
    (SetBorder { content := { x := 0, y := 0, width := 10, height := 5 }, border := none }
        (some [45])).content =
      ({ x := 0, y := 0, width := 10, height := 5 } : rect).grow (-1) (-1) :=
  ⟨rfl,
   (c9_border_rect_algebra
      { content := { x := 0, y := 0, width := 10, height := 5 }, border := none } [45]).1 rfl⟩

/-- C2: refutation of the claim as stated.  For the input
`ESC [ 5 G LF` the unknown CSI sequence `ESC [ 5 G` is retained with an
empty `preescape`, so the restored `output` still begins with `ESC`; the
following `LF` is routed to the escape handler and merely appended to
`output`: no chunk at all is emitted while the claim requires the
consumed `LF` to appear as its own single-byte chunk, and the final flush
delivers the single mixed chunk `ESC [ 5 G LF` containing both a
terminator and non-terminator bytes. -/
theorem c2_line_demarcation_counterexample :
    processBytes (initState true) [27, 91, 53, 71, 10] =
      some ({ scr := true, output := [27, 91, 53, 71, 10], last := [],
              preescape := [], linepos := -1 }, [], []) ∧
    runLine true [27, 91, 53, 71, 10] 7 = some ([], [[27, 91, 53, 71, 10]], 7) := by
  decide

/-- C2 (amended): in Line mode a `CR` or `LF` consumed while the in-flight
`output` does not begin with `ESC` is delivered as its own single-byte
chunk, preceded (exactly when `preescape ++ output` is nonempty) by one
chunk holding that pending content; likewise when `output` is exactly the
single byte `ESC` (the just-started escape is aborted and the terminator
re-dispatched), where the terminator chunk is preceded by the flushed
chunk `preescape ++ [ESC]`; but a terminator consumed while `output`
begins with `ESC` and has at least two bytes (a collecting escape, or a
retained unknown CSI) is instead appended to `output` with nothing
emitted, and can later surface inside a chunk mixing terminator and
non-terminator bytes. -/
theorem c2_line_demarcation_amended :
    (∀ (s : LineState) (ch : Nat), (ch = CR ∨ ch = LF) → startsEsc s.output = false →
        dispatch s ch = some ((emit (hpush s)).1, techo s [CR, LF],
          (if s.preescape ++ s.output = [] then []
           else [s.preescape ++ s.output]) ++ [[ch]])) ∧
    (∀ (s : LineState) (ch : Nat), (ch = CR ∨ ch = LF) → s.output = [ESC] →
        dispatch s ch =
          some ((emit (hpush { s with output := s.preescape ++ [ESC], preescape := [] })).1,
                techo s [ESC] ++ techo s [CR, LF],
                [s.preescape ++ [ESC]] ++ [[ch]])) ∧
    (∀ (s : LineState) (ch : Nat), (ch = CR ∨ ch = LF) → startsEsc s.output = true →
        2 ≤ s.output.length →
        dispatch s ch = some ({ s with output := s.output ++ [ch] }, [], [])) := by
  refine ⟨?_, ?_, ?_⟩
  · intro s ch hch hesc
    unfold dispatch
    rw [hesc]
    unfold linechar
    have hne : ¬ ch = ESC := by rcases hch with rfl | rfl <;> decide
    rw [if_neg hne, if_pos hch, emit_snd, hpush_preescape, hpush_output]
    simp
  · intro s ch hch ho
    have hesc : startsEsc s.output = true := by rw [ho]; rfl
    have hne : ¬ ch = ESC := by rcases hch with rfl | rfl <;> decide
    have h91 : ¬ ch = 91 := by rcases hch with rfl | rfl <;> decide
    have hlc : linechar { s with output := s.preescape ++ [ESC], preescape := [] } ch =
        some ((emit (hpush { s with output := s.preescape ++ [ESC], preescape := [] })).1,
              techo s [CR, LF],
              (emit (hpush { s with output := s.preescape ++ [ESC], preescape := [] })).2
                ++ [[ch]]) := by
      unfold linechar
      rw [if_neg hne, if_pos hch]
      rfl
    unfold dispatch
    rw [hesc]
    unfold lineesc
    rw [ho, if_pos (show ([ESC] : List Nat).length = 1 from rfl), if_neg h91, hlc,
      emit_snd, hpush_preescape, hpush_output]
    simp [techo]
  · intro s ch hch hesc hlen
    unfold dispatch
    rw [hesc]
    unfold lineesc
    have h64 : ¬ (64 ≤ ch ∧ ch ≤ 126) := by rcases hch with rfl | rfl <;> decide
    rw [if_neg (show ¬ s.output.length = 1 by omega), if_neg h64]
    simp

theorem c2_line_demarcation_amended_witness :
    ((10 : Nat) = CR ∨ (10 : Nat) = LF) ∧
    startsEsc ([97] : List Nat) = false ∧
    dispatch { scr := true, output := [97], last := [], preescape := [], linepos := -1 } 10 =
      some ({ scr := true, output := [], last := [97], preescape := [], linepos := -1 },
            [13, 10], [[97], [10]]) ∧
    ({ scr := true, output := [27], last := [], preescape := [97, 98], linepos := -1 }
       : LineState).output = [ESC] ∧
    dispatch { scr := true, output := [27], last := [], preescape := [97, 98],
               linepos := -1 } 10 =
      some ({ scr := true, output := [], last := [97, 98, 27], preescape := [], linepos := -1 },
            [27, 13, 10], [[97, 98, 27], [10]]) := by
  refine ⟨Or.inr rfl, rfl, ?_, by decide, ?_⟩
  · have h := c2_line_demarcation_amended.1
      { scr := true, output := [97], last := [], preescape := [], linepos := -1 } 10
      (Or.inr rfl) rfl
    rw [h]
    decide
  · have h := c2_line_demarcation_amended.2.1
      { scr := true, output := [27], last := [], preescape := [97, 98], linepos := -1 } 10
      (Or.inr rfl) (by decide)
    rw [h]
    decide

/-- C3: refutation of the claim as stated.  The claim quantifies the
arriving byte over both BS (0x08) and DEL (0x7F) but asserts the echo
always starts (and, at end of line, ends) with BS; the code echoes the
arriving byte itself, so for DEL at end of line the echo is
`DEL SP DEL`, not `BS SP BS`. -/
theorem c3_backspace_echo_counterexample :
    linechar { scr := true, output := [97], last := [], preescape := [], linepos := -1 } DEL =
      some ({ scr := true, output := [], last := [], preescape := [], linepos := -1 },
            [DEL, 32, DEL], []) ∧
    [DEL, 32, DEL] ≠ [BS, 32, BS] := by
  decide

/-- C3 (amended): for an arriving byte `ch` in {BS, DEL} with an echo sink
attached: when `output` is empty or `linepos = 0` nothing happens; when
`0 < linepos ≤ len(output)` the echo is exactly
`ch, output[linepos:], SP, BS × (delta+1)` with
`delta = len(output) - linepos`, `output[linepos-1]` is deleted and
`linepos` decremented; at end of line (`linepos < 0`, `output` nonempty)
the echo is exactly `ch, SP, ch` and `output` is truncated by one.  (For
`ch = BS` this coincides with the original claim.) -/
theorem c3_backspace_echo_amended (s : LineState) (ch : Nat)
    (hch : ch = BS ∨ ch = DEL) (hscr : s.scr = true) :
    ((s.output = [] ∨ s.linepos = 0) → linechar s ch = some (s, [], [])) ∧
    (∀ lp : Nat, s.linepos = (lp : Int) → 0 < lp → lp ≤ s.output.length →
        linechar s ch =
          some ({ s with output := s.output.take (lp - 1) ++ s.output.drop lp,
                         linepos := (lp : Int) - 1 },
                ch :: (s.output.drop lp ++ 32 :: List.replicate (s.output.length - lp + 1) BS),
                [])) ∧
    (s.linepos < 0 → s.output ≠ [] →
        linechar s ch = some ({ s with output := s.output.dropLast }, [ch, 32, ch], [])) := by
  have hn1 : ¬ ch = ESC := by rcases hch with rfl | rfl <;> decide
  have hn2 : ¬ (ch = CR ∨ ch = LF) := by rcases hch with rfl | rfl <;> decide
  have hn3 : ¬ ch ∈ emitCtl := by rcases hch with rfl | rfl <;> decide
  refine ⟨?_, ?_, ?_⟩
  · intro h0
    unfold linechar
    rw [if_neg hn1, if_neg hn2, if_neg hn3, if_pos hch, if_pos h0]
  · intro lp hlp h0 hle
    have hout : s.output ≠ [] := by
      intro hE
      rw [hE] at hle
      simp at hle
      omega
    unfold linechar
    rw [if_neg hn1, if_neg hn2, if_neg hn3, if_pos hch,
      if_neg (by push_neg; exact ⟨hout, by omega⟩),
      if_pos (by omega), if_neg (by omega), hlp]
    simp [techo, hscr]
  · intro hneg hout
    unfold linechar
    rw [if_neg hn1, if_neg hn2, if_neg hn3, if_pos hch,
      if_neg (by push_neg; exact ⟨hout, by omega⟩),
      if_neg (by omega)]
    simp [techo, hscr]

theorem c3_backspace_echo_amended_witness :
    ((8 : Nat) = BS ∨ (8 : Nat) = DEL) ∧
    ({ scr := true, output := [97, 98], last := [], preescape := [], linepos := 1 }
       : LineState).linepos = ((1 : Nat) : Int) ∧
    linechar { scr := true, output := [97, 98], last := [], preescape := [], linepos := 1 } 8 =
      some ({ scr := true, output := [98], last := [], preescape := [], linepos := 0 },
            [8, 98, 32, 8, 8], []) := by
  refine ⟨Or.inl rfl, by decide, ?_⟩
  have h := (c3_backspace_echo_amended
    { scr := true, output := [97, 98], last := [], preescape := [], linepos := 1 } 8
    (Or.inl rfl) rfl).2.1 1 (by decide) (by decide) (by decide)
  rw [h]
  decide

/-- C4: when a CSI escape sequence completes with final byte `B` (DOWN):
if `linepos < 0` the sequence is consumed with no effect and no echo
(`output` is restored to `preescape`, which is cleared); otherwise the
engine echoes the tail of the line from the cursor position to the end —
`preescape[linepos:]`, which equals `output[linepos:]` of the resulting
state since the consumed escape restores `output = preescape` — and sets
`linepos = -1`. -/
theorem c4_down_escape (s : LineState) (hlen : s.output.length ≠ 1) :
    (s.linepos < 0 →
        lineesc s 66 = some ({ s with output := s.preescape, preescape := [] }, [], [])) ∧
    (∀ lp : Nat, s.linepos = (lp : Int) → lp ≤ s.preescape.length → s.scr = true →
        lineesc s 66 =
          some ({ s with output := s.preescape, preescape := [], linepos := -1 },
                s.preescape.drop lp, []) ∧
        s.preescape.drop lp =
          ({ s with output := s.preescape, preescape := [], linepos := -1 }
            : LineState).output.drop lp) := by
  constructor
  · intro hneg
    unfold lineesc
    rw [if_neg hlen, if_pos (by omega), if_neg (by decide), if_pos rfl, if_pos hneg]
  · intro lp hlp hle hscr
    constructor
    · unfold lineesc
      rw [if_neg hlen, if_pos (by omega), if_neg (by decide), if_pos rfl,
        if_neg (by omega), if_neg (by omega), hlp]
      simp [techo, hscr]
    · simp

theorem c4_down_escape_witness :
    (([27, 91] : List Nat).length ≠ 1) ∧
    ({ scr := true, output := [27, 91], last := [], preescape := [97, 98, 99], linepos := 1 }
       : LineState).linepos = ((1 : Nat) : Int) ∧
    lineesc { scr := true, output := [27, 91], last := [], preescape := [97, 98, 99],
              linepos := 1 } 66 =
      some ({ scr := true, output := [97, 98, 99], last := [], preescape := [], linepos := -1 },
            [98, 99], []) := by
  refine ⟨by decide, by decide, ?_⟩
  have h := ((c4_down_escape
    { scr := true, output := [27, 91], last := [], preescape := [97, 98, 99], linepos := 1 }
    (by decide)).2 1 (by decide) (by decide) rfl).1
  rw [h]
  decide
